import Mathlib

/-!
Verification development for the vscode-sftp extension core
(connection pool, remote change watcher backoff, speed tracker,
transfer pipeline, filesystem provider).

Each definition is a shallow embedding of one function of the
TypeScript source (file and symbol named in its doc comment).
JavaScript numbers are modelled as Nat or Int (times in
milliseconds as Int, byte counts as Nat); the instantaneous
speed, a float in the source, is modelled as a rational.
-/

namespace VscodeSftp

/-! ## Constants (src/constants.ts) -/

/-- constants.ts: maxConnCount = 4. -/
def maxConnCount : Nat := 4

/-- constants.ts: watchMinInterval = 500. -/
def watchMinInterval : Nat := 500

/-- constants.ts: watchMaxInterval = 10000. -/
def watchMaxInterval : Nat := 10000

/-! ## Connection pool (ConnPool.ts)

The pool keeps, per authority, a queue of idle sessions (`conns`,
a JS array used as a stack: push appends, pop takes the last
element) and a live counter `count`.  We model one authority's
queue together with the sessions currently checked out (`inUse`)
and the number of session creations in flight (`creating`); the
latter two are implicit in the source (a session is in use
between `_getConn` returning it and the `finally` block of
`withConn`; a creation is in flight while `utils.getConn` is
awaited).  `count` is an Int exactly as the JS number. -/

/-- A pooled session: its identity and how many event listeners are
installed on its client (withConn installs a close listener on
acquisition and calls removeAllListeners before re-queueing). -/
structure PConn where
  id : Nat
  listeners : Nat
deriving DecidableEq

/-- One authority's pool state. -/
structure PoolSt where
  conns : List PConn
  count : Int
  inUse : List PConn
  creating : Nat
deriving DecidableEq

/-- The pool state of an authority never seen before
(ConnPool._getConn creates { conns: [], count: 0 }). -/
def initPool : PoolSt := ⟨[], 0, [], 0⟩

/-- Atomic pool events, as they occur between await points of
ConnPool._getConn, ConnPool.withConn and ConnPool.pushConn. -/
inductive PoolOp where
  /-- _getConn: `connQueue.conns.pop()` succeeds (idle session taken);
  withConn then installs the close listener on it. -/
  | acquirePop
  /-- _getConn: no idle session and `count < maxConnCount`:
  `connQueue.count ++` and session creation starts. -/
  | acquireBegin
  /-- _getConn: `utils.getConn(config)` resolves with a fresh session;
  withConn installs the close listener on it. -/
  | createOk (i : Nat)
  /-- _getConn: `utils.getConn(config)` throws: `connQueue.count --`. -/
  | createFail
  /-- withConn finally, transport still live: `removeAllListeners()`
  and `conns.push(conn)`. -/
  | releaseLive (c : PConn)
  /-- withConn finally, transport closed during use: `count --`. -/
  | releaseDead (c : PConn)
  /-- pushConn: seed an externally created session:
  `count ++` and push. -/
  | pushConn (c : PConn)
deriving DecidableEq

/-- One pool event applied to one authority's state; `none` when the
event is not enabled there (its guard in the source fails). -/
def poolStep (s : PoolSt) : PoolOp → Option PoolSt
  | .acquirePop =>
      match s.conns.getLast? with
      | none => none
      | some c =>
          some { s with
                  conns := s.conns.dropLast,
                  inUse := ⟨c.id, c.listeners + 1⟩ :: s.inUse }
  | .acquireBegin =>
      if s.conns = [] ∧ s.count < (maxConnCount : Int) then
        some { s with count := s.count + 1, creating := s.creating + 1 }
      else
        none
  | .createOk i =>
      match s.creating with
      | 0 => none
      | n + 1 => some { s with creating := n, inUse := ⟨i, 1⟩ :: s.inUse }
  | .createFail =>
      match s.creating with
      | 0 => none
      | n + 1 => some { s with creating := n, count := s.count - 1 }
  | .releaseLive c =>
      if c ∈ s.inUse then
        some { s with inUse := s.inUse.erase c, conns := s.conns ++ [⟨c.id, 0⟩] }
      else
        none
  | .releaseDead c =>
      if c ∈ s.inUse then
        some { s with inUse := s.inUse.erase c, count := s.count - 1 }
      else
        none
  | .pushConn c =>
      some { s with count := s.count + 1, conns := s.conns ++ [c] }

/-- Run a sequence of pool events. -/
def poolRun (s : PoolSt) : List PoolOp → Option PoolSt
  | [] => some s
  | op :: ops =>
      match poolStep s op with
      | none => none
      | some s1 => poolRun s1 ops

/-- True when the event is a ConnPool.pushConn seed. -/
def PoolOp.isSeed : PoolOp → Bool
  | .pushConn _ => true
  | _ => false

/-- True when the event introduces a session with identity `i`
into the pool from outside (creation or seeding). -/
def PoolOp.introducesId (i : Nat) : PoolOp → Bool
  | .createOk j => j = i
  | .pushConn c => c.id = i
  | _ => false

/-- Identity `i` appears nowhere in the authority's state. -/
def idFree (i : Nat) (s : PoolSt) : Bool :=
  s.conns.all (fun x => x.id ≠ i) && s.inUse.all (fun x => x.id ≠ i)

/-! ## Remote change watcher backoff (FsProvider.watch)

`doWatch` keeps `watchInterval`, initially watchMinInterval; a
successful poll resets it to watchMinInterval, a failed poll
doubles it and caps it at watchMaxInterval; the next poll is
scheduled after the updated interval. -/

/-- FsProvider.watch catch branch: `watchInterval *= 2;
if (watchInterval > watchMaxInterval) watchInterval = watchMaxInterval`. -/
def nextWatchInterval (w : Nat) : Nat :=
  let w2 := w * 2
  if w2 > watchMaxInterval then watchMaxInterval else w2

/-- Interval update after one poll cycle: reset on success,
double-and-cap on failure. -/
def watchStep (w : Nat) (ok : Bool) : Nat :=
  if ok then watchMinInterval else nextWatchInterval w

/-- The poll delay scheduled after the given sequence of poll
outcomes (true = successful cycle, false = failed cycle),
starting from the initial `watchInterval = watchMinInterval`. -/
def watchIntervalAfter (outcomes : List Bool) : Nat :=
  outcomes.foldl watchStep watchMinInterval

/-! ## FsProvider.rename (FsProvider.ts) -/

/-- An sftp:// URI, reduced to the two components rename reads. -/
structure SUri where
  authority : String
  path : String
deriving DecidableEq

/-- Remote-touching effects of FsProvider.rename, in order. -/
inductive RenameEffect where
  /-- A session is acquired from the pool for the authority. -/
  | acquireConn (authority : String)
  /-- `this.delete(newUri, { recursive: true })` on the destination. -/
  | deleteDst (authority : String) (path : String)
  /-- `conn.sftp.rename(oldUri.path, newUri.path)`. -/
  | sftpRename (authority : String) (oldPath : String) (newPath : String)
deriving DecidableEq

/-- FsProvider.rename: the effects it issues and its outcome.
Identical paths return at once; differing authorities throw before
the pool is touched; otherwise a session is acquired, the
destination is deleted first when overwrite is set, and the remote
rename is issued. -/
def rename (oldUri newUri : SUri) (overwrite : Bool) :
    List RenameEffect × Except String Unit :=
  if oldUri.path = newUri.path then
    ([], .ok ())
  else if oldUri.authority ≠ newUri.authority then
    ([], .error "Authorities different")
  else
    (RenameEffect.acquireConn oldUri.authority ::
      (if overwrite then [RenameEffect.deleteDst newUri.authority newUri.path] else []) ++
      [RenameEffect.sftpRename oldUri.authority oldUri.path newUri.path],
     .ok ())

/-! ## Speed tracker (SpeedSummary.ts)

Byte counts are Nat, times (Date.now() milliseconds) are Int, the
instantaneous speed (a JS float used only in the report message)
is a rational.  `Math.floor((completeSize / totalSize) * 100)` is
modelled as the exact integer `completeSize * 100 / totalSize`
(Nat division); the two agree over exact arithmetic. -/

/-- The mutable fields of a SpeedSummary instance. -/
structure SpeedState where
  totalSize : Nat
  curBatchSize : Nat
  completeSize : Nat
  lastPercent : Int
  lastSpeed : ℚ
  lastSpeedUpdatedTime : Int
  lastReportTime : Int
  curFile : String
  curFileChanged : Bool
deriving DecidableEq

/-- Math.floor((complete / total) * 100) over exact arithmetic. -/
def pctFloor (total complete : Nat) : Int :=
  (complete * 100 / total : Nat)

/-- SpeedSummary.getIncrement:
`Math.floor((completeSize / totalSize) * 100) - lastPercent`. -/
def getIncrement (s : SpeedState) : Int :=
  pctFloor s.totalSize s.completeSize - s.lastPercent

/-- SpeedSummary.shouldReport:
`(now - lastReportTime > 100) && (curFileChanged || getIncrement() > 0
|| now - lastSpeedUpdatedTime > 1000)`. -/
def shouldReport (s : SpeedState) (now : Int) : Bool :=
  decide (now - s.lastReportTime > 100) &&
    (s.curFileChanged || decide (getIncrement s > 0) ||
      decide (now - s.lastSpeedUpdatedTime > 1000))

/-- SpeedSummary.getSpeed: recompute the speed when it is zero or
stale (batch bytes divided by the window length, per second),
resetting the batch and the window start; otherwise reuse it. -/
def getSpeed (s : SpeedState) (now : Int) : ℚ × SpeedState :=
  if s.lastSpeed = 0 ∨ now - s.lastSpeedUpdatedTime > 1000 then
    let speed : ℚ := (s.curBatchSize : ℚ) / ((now : ℚ) - (s.lastSpeedUpdatedTime : ℚ)) * 1000
    (speed, { s with curBatchSize := 0, lastSpeedUpdatedTime := now, lastSpeed := speed })
  else
    (s.lastSpeed, s)

/-- One progress report: the increment passed to progress.report and
the speed and file name shown in its message. -/
structure Report where
  increment : Int
  speed : ℚ
  file : String
deriving DecidableEq

/-- SpeedSummary.transform on one chunk, with `now` the Date.now()
of this call: add the chunk to both byte counters; if shouldReport,
emit a report (increment = getIncrement(), speed via getSpeed),
then add getIncrement() to lastPercent, set lastReportTime and
clear curFileChanged. -/
def transformStep (s : SpeedState) (chunkLen : Nat) (now : Int) :
    SpeedState × Option Report :=
  let s1 := { s with
               curBatchSize := s.curBatchSize + chunkLen,
               completeSize := s.completeSize + chunkLen }
  if shouldReport s1 now then
    let inc := getIncrement s1
    let sp := getSpeed s1 now
    let s2 := sp.2
    let s3 := { s2 with
                 lastPercent := s2.lastPercent + getIncrement s2,
                 lastReportTime := now,
                 curFileChanged := false }
    (s3, some ⟨inc, sp.1, s1.curFile⟩)
  else
    (s1, none)

/-- The SpeedSummary constructor, with `t0` the Date.now() at
construction time. -/
def initSummary (totalSize : Nat) (t0 : Int) : SpeedState :=
  ⟨totalSize, 0, 0, 0, 0, t0, 0, "", false⟩

/-- Feed a sequence of (chunk length, arrival time) pairs through
transform; returns the final state and, per chunk, the report it
emitted, if any. -/
def runChunks (s : SpeedState) : List (Nat × Int) → SpeedState × List (Option Report)
  | [] => (s, [])
  | (len, t) :: rest =>
      let st := transformStep s len t
      let rec_ := runChunks st.1 rest
      (rec_.1, st.2 :: rec_.2)

/-- The increments of the reports actually emitted in a run, in
order; their running sum is the cumulative reported percentage. -/
def emittedIncrements (outs : List (Option Report)) : List Int :=
  (outs.filterMap id).map Report.increment

/-! ## Transfer pipeline sizes (Loader._getUploadFolderSize,
Loader._getUploadTypeAndSize)

A local directory tree as seen through readdir and lstat: a named
entry is a regular file with a size, a directory with
sub-entries, a symbolic link (lstat does not follow it), or
something else (isFile, isDirectory and isSymbolicLink all
false). -/

mutual
/-- One local filesystem entry. -/
inductive LEntry where
  | file (size : Nat)
  | dir (sub : LEntries)
  | symlink (target : String)
  | other

/-- The named entries of a local directory, in readdir order. -/
inductive LEntries where
  | nil
  | cons (name : String) (e : LEntry) (rest : LEntries)
end

mutual
/-- The contribution of one directory entry to
Loader._getUploadFolderSize: `stats = lstat(subFilePath);
if (stats.isFile()) size += stats.size;
else if (stats.isDirectory()) size += recurse;` (anything else,
symlinks included, adds nothing). -/
def lstatContribution : LEntry → Nat
  | .file sz => sz
  | .dir sub => getUploadFolderSize sub
  | .symlink _ => 0
  | .other => 0

/-- Loader._getUploadFolderSize: total over the directory's
entries. -/
def getUploadFolderSize : LEntries → Nat
  | .nil => 0
  | .cons _ e rest => lstatContribution e + getUploadFolderSize rest
end

/-- Loader._getUploadTypeAndSize on a directory root
(`fs.stat` on a directory reports isDirectory, and the size is
computed by _getUploadFolderSize). -/
def getUploadTypeAndSizeOfDir (sub : LEntries) : Nat :=
  getUploadFolderSize sub

mutual
/-- The sizes of all regular files anywhere in the tree rooted at
one entry; symbolic links and other entries contribute no files.
Modelled from the spec: the sum of the sizes of all regular files
in the tree, symlinks and unknown entries excluded. -/
def regularFileSizes : LEntry → List Nat
  | .file sz => [sz]
  | .dir sub => regularFileSizesList sub
  | .symlink _ => []
  | .other => []

/-- The sizes of all regular files in a directory's tree.
Modelled from the spec (see regularFileSizes). -/
def regularFileSizesList : LEntries → List Nat
  | .nil => []
  | .cons _ e rest => regularFileSizes e ++ regularFileSizesList rest
end

/-! ## Transfer pipeline cancellation cleanup (Loader.download,
Loader.upload)

Filesystem paths are segment lists; a filesystem (local disk or
remote tree) is the list of paths that exist.  `fs.remove(dstPath)`
and `rm -fr dstPath` delete the path and everything under it.
The writes a transfer performs are listed in depth-first order by
the recursion of _downloadFolder / _uploadFolder; a transfer
interrupted by cancellation has performed a prefix of them. -/

/-- A path, as its segments. -/
abbrev FPath := List String

/-- fs.remove(p) / `rm -fr p`: drop p and every path under it. -/
def removeRecursive (fs : List FPath) (p : FPath) : List FPath :=
  fs.filter (fun q => !(p.isPrefixOf q))

mutual
/-- A remote filesystem entry as classified by
Loader._getDownloadSubFiles (ls + readlink): file, directory,
symlink to file / directory / unknown, or unknown. -/
inductive REntry where
  | file
  | dir (sub : REntries)
  | symFile (target : String)
  | symDir (target : String)
  | symUnknown (target : String)
  | unknown

/-- The entries of a remote directory, in listing order. -/
inductive REntries where
  | nil
  | cons (name : String) (e : REntry) (rest : REntries)
end

mutual
/-- The local paths Loader._downloadFolder creates for one remote
entry at dst ++ [name]: a file write, a directory (mkdir then its
contents, depth first), a symlink creation — except that on
Windows a symlink to an unknown target type falls through to the
warning and creates nothing — or nothing for an unknown entry. -/
def downloadEntryWrites (dst : FPath) (win : Bool) (name : String) :
    REntry → List FPath
  | .file => [dst ++ [name]]
  | .dir sub => (dst ++ [name]) :: downloadWrites (dst ++ [name]) win sub
  | .symFile _ => [dst ++ [name]]
  | .symDir _ => [dst ++ [name]]
  | .symUnknown _ => if win then [] else [dst ++ [name]]
  | .unknown => []

/-- The local paths Loader._downloadFolder creates inside dst for a
remote directory's entries, in recursion order. -/
def downloadWrites (dst : FPath) (win : Bool) : REntries → List FPath
  | .nil => []
  | .cons name e rest =>
      downloadEntryWrites dst win name e ++ downloadWrites dst win rest
end

/-- All local paths Loader.download creates at dstPath for a remote
source of the given type: _downloadFolder first creates dstPath
itself (fs.mkdir), _downloadFile creates the destination file;
other root types throw before writing. -/
def downloadAllWrites (dst : FPath) (win : Bool) : REntry → List FPath
  | .dir sub => dst :: downloadWrites dst win sub
  | .file => [dst]
  | _ => []

mutual
/-- The remote paths Loader._uploadFolder creates for one local
entry at dst ++ [name] (lstat classification): a file write, a
directory (sftp.mkdir then its contents, depth first), a symlink
creation, or nothing for an unknown entry. -/
def uploadEntryWrites (dst : FPath) (name : String) : LEntry → List FPath
  | .file _ => [dst ++ [name]]
  | .dir sub => (dst ++ [name]) :: uploadWrites (dst ++ [name]) sub
  | .symlink _ => [dst ++ [name]]
  | .other => []

/-- The remote paths Loader._uploadFolder creates inside dst for a
local directory's entries, in recursion order. -/
def uploadWrites (dst : FPath) : LEntries → List FPath
  | .nil => []
  | .cons name e rest => uploadEntryWrites dst name e ++ uploadWrites dst rest
end

/-- All remote paths Loader.upload creates at dstPath for a local
source of the given type; other root types throw before writing. -/
def uploadAllWrites (dst : FPath) : LEntry → List FPath
  | .dir sub => dst :: uploadWrites dst sub
  | .file _ => [dst]
  | _ => []

/-- The tail of Loader.download / Loader.upload after the transfer
loop returns: if the cancellation token fired, remove the
destination path recursively and return undefined; otherwise
return the destination info (modelled as the destination path). -/
def loaderFinish (fs : List FPath) (dst : FPath) (cancelled : Bool) :
    List FPath × Option FPath :=
  if cancelled then
    (removeRecursive fs dst, none)
  else
    (fs, some dst)

/-- Loader.download from the start of the transfer: the filesystem
already holds fs0 (with the destination cleared by the
exists/overwrite step), the interrupted transfer performed the
first k of its writes, then the cancellation check runs. -/
def downloadRun (fs0 : List FPath) (dst : FPath) (win : Bool)
    (tree : REntry) (k : Nat) (cancelled : Bool) :
    List FPath × Option FPath :=
  loaderFinish (fs0 ++ (downloadAllWrites dst win tree).take k) dst cancelled

/-- Loader.upload from the start of the transfer, symmetrically on
the remote filesystem. -/
def uploadRun (fs0 : List FPath) (dst : FPath)
    (tree : LEntry) (k : Nat) (cancelled : Bool) :
    List FPath × Option FPath :=
  loaderFinish (fs0 ++ (uploadAllWrites dst tree).take k) dst cancelled

/-! ## FsProvider.writeFile open flags (FsProvider.ts) -/

/-- FsProvider.writeFile: `let openFlags = 'w';
if (!options.create) openFlags = 'r+';
if (!options.overwrite) openFlags = 'wx';`. -/
def writeFileOpenFlags (create overwrite : Bool) : String :=
  let openFlags := "w"
  let openFlags := if !create then "r+" else openFlags
  let openFlags := if !overwrite then "wx" else openFlags
  openFlags

/-! ## Helper lemmas -/

/-- The double-and-cap update equals min with the cap. -/
lemma nextWatchInterval_eq_min (w : Nat) :
    nextWatchInterval w = min (w * 2) watchMaxInterval := by
  unfold nextWatchInterval watchMaxInterval
  simp only []
  split <;> omega

/-- The poll delay after k consecutive failed cycles starting from
the minimum interval. -/
lemma foldl_watchStep_replicate (k : Nat) :
    List.foldl watchStep watchMinInterval (List.replicate k false)
      = min (watchMinInterval * 2 ^ k) watchMaxInterval := by
  induction k with
  | zero => decide
  | succ k ih =>
      rw [List.replicate_succ', List.foldl_append, ih]
      show watchStep _ false = _
      unfold watchStep
      rw [if_neg (by simp), nextWatchInterval_eq_min, pow_succ]
      unfold watchMinInterval watchMaxInterval
      omega

/-- The poll delay never leaves the band between the two interval
constants. -/
lemma foldl_watchStep_le (l : List Bool) :
    ∀ acc : Nat, acc ≤ watchMaxInterval →
      List.foldl watchStep acc l ≤ watchMaxInterval := by
  induction l with
  | nil => intro acc h; simpa using h
  | cons b rest ih =>
      intro acc h
      refine ih _ ?_
      cases b
      · show nextWatchInterval acc ≤ watchMaxInterval
        rw [nextWatchInterval_eq_min]
        omega
      · show watchMinInterval ≤ watchMaxInterval
        decide

/-- A single non-seed pool event keeps the live counter at or below
the cap. -/
lemma poolStep_count_le (s s1 : PoolSt) (op : PoolOp)
    (hop : op.isSeed = false) (h : poolStep s op = some s1)
    (hle : s.count ≤ (maxConnCount : Int)) : s1.count ≤ (maxConnCount : Int) := by
  cases op with
  | acquirePop =>
      simp only [poolStep] at h
      split at h
      · exact absurd h (by simp)
      · cases h; exact hle
  | acquireBegin =>
      simp only [poolStep] at h
      split at h
      · rename_i hcond
        cases h
        have h2 := hcond.2
        show s.count + 1 ≤ _
        omega
      · exact absurd h (by simp)
  | createOk i =>
      simp only [poolStep] at h
      split at h
      · exact absurd h (by simp)
      · cases h; exact hle
  | createFail =>
      simp only [poolStep] at h
      split at h
      · exact absurd h (by simp)
      · cases h
        show s.count - 1 ≤ _
        omega
  | releaseLive c =>
      simp only [poolStep] at h
      split at h
      · cases h; exact hle
      · exact absurd h (by simp)
  | releaseDead c =>
      simp only [poolStep] at h
      split at h
      · cases h
        show s.count - 1 ≤ _
        omega
      · exact absurd h (by simp)
  | pushConn c => simp [PoolOp.isSeed] at hop

/-- A seed-free event sequence keeps the live counter at or below
the cap. -/
lemma poolRun_count_le (ops : List PoolOp) :
    ∀ s0 s : PoolSt, s0.count ≤ (maxConnCount : Int) →
      poolRun s0 ops = some s →
      (∀ op ∈ ops, op.isSeed = false) →
      s.count ≤ (maxConnCount : Int) := by
  induction ops with
  | nil =>
      intro s0 s h hrun _
      unfold poolRun at hrun
      cases hrun
      exact h
  | cons op rest ih =>
      intro s0 s h hrun hseed
      unfold poolRun at hrun
      cases hstep : poolStep s0 op with
      | none => rw [hstep] at hrun; exact absurd hrun (by simp)
      | some s1 =>
          rw [hstep] at hrun
          exact ih s1 s
            (poolStep_count_le s0 s1 op (hseed op (by simp)) hstep h)
            hrun
            (fun o ho => hseed o (by simp [ho]))

/-- A pool event that does not introduce session identity i keeps
the state free of i. -/
lemma poolStep_idFree (i : Nat) (s s1 : PoolSt) (op : PoolOp)
    (hop : op.introducesId i = false) (h : poolStep s op = some s1)
    (hfree : idFree i s = true) : idFree i s1 = true := by
  unfold idFree at hfree ⊢
  rw [Bool.and_eq_true, List.all_eq_true, List.all_eq_true] at hfree ⊢
  obtain ⟨hconns, hinuse⟩ := hfree
  cases op with
  | acquirePop =>
      simp only [poolStep] at h
      split at h
      · exact absurd h (by simp)
      · rename_i c hc
        cases h
        refine ⟨fun x hx => hconns x ((List.dropLast_prefix s.conns).subset hx), ?_⟩
        intro x hx
        rcases List.mem_cons.mp hx with hx | hx
        · subst hx
          have hcmem : c ∈ s.conns := by
            rcases @List.mem_getLast?_eq_getLast _ s.conns c hc with ⟨hne, rfl⟩
            exact List.getLast_mem hne
          simpa using (by simpa using hconns c hcmem)
        · exact hinuse x hx
  | acquireBegin =>
      simp only [poolStep] at h
      split at h
      · cases h; exact ⟨hconns, hinuse⟩
      · exact absurd h (by simp)
  | createOk j =>
      simp only [poolStep] at h
      split at h
      · exact absurd h (by simp)
      · cases h
        refine ⟨hconns, fun x hx => ?_⟩
        rcases List.mem_cons.mp hx with hx | hx
        · subst hx
          simpa using (by simpa [PoolOp.introducesId] using hop)
        · exact hinuse x hx
  | createFail =>
      simp only [poolStep] at h
      split at h
      · exact absurd h (by simp)
      · cases h; exact ⟨hconns, hinuse⟩
  | releaseLive c =>
      simp only [poolStep] at h
      split at h
      · rename_i hmem
        cases h
        refine ⟨fun x hx => ?_, fun x hx => hinuse x (List.mem_of_mem_erase hx)⟩
        rcases List.mem_append.mp hx with hx | hx
        · exact hconns x hx
        · rcases List.mem_singleton.mp hx with rfl
          simpa using (by simpa using hinuse c hmem)
      · exact absurd h (by simp)
  | releaseDead c =>
      simp only [poolStep] at h
      split at h
      · cases h
        exact ⟨hconns, fun x hx => hinuse x (List.mem_of_mem_erase hx)⟩
      · exact absurd h (by simp)
  | pushConn c =>
      simp only [poolStep] at h
      cases h
      refine ⟨fun x hx => ?_, hinuse⟩
      rcases List.mem_append.mp hx with hx | hx
      · exact hconns x hx
      · rcases List.mem_singleton.mp hx with rfl
        simpa using (by simpa [PoolOp.introducesId] using hop)

/-- An event sequence that never introduces identity i keeps the
state free of i. -/
lemma poolRun_idFree (i : Nat) (ops : List PoolOp) :
    ∀ s0 s : PoolSt, idFree i s0 = true →
      poolRun s0 ops = some s →
      (∀ op ∈ ops, op.introducesId i = false) →
      idFree i s = true := by
  induction ops with
  | nil =>
      intro s0 s h hrun _
      unfold poolRun at hrun
      cases hrun
      exact h
  | cons op rest ih =>
      intro s0 s h hrun hintro
      unfold poolRun at hrun
      cases hstep : poolStep s0 op with
      | none => rw [hstep] at hrun; exact absurd hrun (by simp)
      | some s1 =>
          rw [hstep] at hrun
          exact ih s1 s
            (poolStep_idFree i s0 s1 op (hintro op (by simp)) hstep h)
            hrun
            (fun o ho => hintro o (by simp [ho]))

/-! ## C1, C3 -/

/-- C1 (amended): for every authority and every interleaving of
acquisitions via ConnPool._getConn and releases via
ConnPool.withConn — no seeding via ConnPool.pushConn — the live
counter never exceeds maxConnCount = 4 (the counter is incremented
before session creation begins, under the guard count <
maxConnCount, and decremented if creation fails), and at the cap
with no idle session a further acquisition cannot begin creating a
session and must wait.  Seeding via pushConn increments the counter
unconditionally and can push it past the cap (see
pool_cap_exceeded_by_seeding). -/
theorem pool_count_le_cap (ops : List PoolOp) (s : PoolSt)
    (hrun : poolRun initPool ops = some s)
    (hseed : ∀ op ∈ ops, op.isSeed = false) :
    s.count ≤ (maxConnCount : Int) ∧
    (s.count = (maxConnCount : Int) → poolStep s .acquireBegin = none) := by
  refine ⟨poolRun_count_le ops initPool s (by decide) hrun hseed, ?_⟩
  intro hfull
  unfold poolStep
  rw [if_neg]
  intro hcond
  rw [hfull] at hcond
  exact absurd hcond.2 (by omega)

/-- Witness for pool_count_le_cap: one acquisition, one creation,
one live release back to the idle queue. -/
theorem pool_count_le_cap_witness :
    poolRun initPool [PoolOp.acquireBegin, PoolOp.createOk 7, PoolOp.releaseLive ⟨7, 1⟩]
      = some ⟨[⟨7, 0⟩], 1, [], 0⟩ ∧
    (∀ op ∈ [PoolOp.acquireBegin, PoolOp.createOk 7, PoolOp.releaseLive ⟨7, 1⟩],
        op.isSeed = false) ∧
    ((⟨[⟨7, 0⟩], 1, [], 0⟩ : PoolSt).count ≤ (maxConnCount : Int) ∧
      ((⟨[⟨7, 0⟩], 1, [], 0⟩ : PoolSt).count = (maxConnCount : Int) →
        poolStep ⟨[⟨7, 0⟩], 1, [], 0⟩ .acquireBegin = none)) :=
  ⟨by decide, by decide,
    pool_count_le_cap [PoolOp.acquireBegin, PoolOp.createOk 7, PoolOp.releaseLive ⟨7, 1⟩]
      ⟨[⟨7, 0⟩], 1, [], 0⟩ (by decide) (by decide)⟩

/-- C1 counterexample: seeding five sessions via ConnPool.pushConn
into a fresh authority drives the live counter to 5, past
maxConnCount = 4 — pushConn increments the counter with no cap
check, so the claim fails for interleavings that include it. -/
theorem pool_cap_exceeded_by_seeding :
    (poolRun initPool (List.replicate 5 (PoolOp.pushConn ⟨0, 0⟩))).map PoolSt.count
      = some 5 ∧
    ¬ ((5 : Int) ≤ (maxConnCount : Int)) :=
  ⟨by decide, by decide⟩

/-- C3: releasing a session through ConnPool.withConn: if the
transport is still live the session is pushed back to the idle
queue with its listeners reset and the counter unchanged; if the
transport closed during use the counter is decremented instead, the
idle queue is unchanged — and, as long as no later event introduces
the dead session's identity again, no pool state reachable
afterwards holds it, so no later acquisition (which pops the idle
queue) can return it. -/
theorem withConn_release_discipline (s : PoolSt) (c : PConn)
    (hin : c ∈ s.inUse)
    (hconns : ∀ x ∈ s.conns, x.id ≠ c.id)
    (hinuse : ∀ x ∈ s.inUse.erase c, x.id ≠ c.id) :
    (poolStep s (.releaseLive c)
       = some { s with inUse := s.inUse.erase c, conns := s.conns ++ [⟨c.id, 0⟩] }) ∧
    (poolStep s (.releaseDead c)
       = some { s with inUse := s.inUse.erase c, count := s.count - 1 }) ∧
    (∀ ops : List PoolOp, ∀ s2 : PoolSt,
       (∀ op ∈ ops, op.introducesId c.id = false) →
       poolRun { s with inUse := s.inUse.erase c, count := s.count - 1 } ops = some s2 →
       idFree c.id s2 = true ∧
         ∀ x : PConn, s2.conns.getLast? = some x → x.id ≠ c.id) := by
  refine ⟨?_, ?_, ?_⟩
  · simp only [poolStep]
    rw [if_pos hin]
  · simp only [poolStep]
    rw [if_pos hin]
  · intro ops s2 hintro hrun
    have hfree0 : idFree c.id ({ s with inUse := s.inUse.erase c, count := s.count - 1 } : PoolSt) = true := by
      unfold idFree
      rw [Bool.and_eq_true, List.all_eq_true, List.all_eq_true]
      exact ⟨fun x hx => by simpa using hconns x hx,
             fun x hx => by simpa using hinuse x hx⟩
    have hfree := poolRun_idFree c.id ops _ s2 hfree0 hrun hintro
    refine ⟨hfree, fun x hlast => ?_⟩
    have hxmem : x ∈ s2.conns := by
      rcases @List.mem_getLast?_eq_getLast _ s2.conns x hlast with ⟨hne, rfl⟩
      exact List.getLast_mem hne
    unfold idFree at hfree
    rw [Bool.and_eq_true, List.all_eq_true, List.all_eq_true] at hfree
    simpa using hfree.1 x hxmem

/-- Witness for withConn_release_discipline: a pool with one idle
session (id 1) and the session with id 2 checked out. -/
theorem withConn_release_discipline_witness :
    ((⟨2, 1⟩ : PConn) ∈ (⟨[⟨1, 0⟩], 2, [⟨2, 1⟩], 0⟩ : PoolSt).inUse) ∧
    (poolStep ⟨[⟨1, 0⟩], 2, [⟨2, 1⟩], 0⟩ (.releaseLive ⟨2, 1⟩)
       = some ⟨[⟨1, 0⟩, ⟨2, 0⟩], 2, [], 0⟩ ∧
     poolStep ⟨[⟨1, 0⟩], 2, [⟨2, 1⟩], 0⟩ (.releaseDead ⟨2, 1⟩)
       = some ⟨[⟨1, 0⟩], 1, [], 0⟩ ∧
     (∀ ops : List PoolOp, ∀ s2 : PoolSt,
        (∀ op ∈ ops, op.introducesId 2 = false) →
        poolRun ⟨[⟨1, 0⟩], 1, [], 0⟩ ops = some s2 →
        idFree 2 s2 = true ∧
          ∀ x : PConn, s2.conns.getLast? = some x → x.id ≠ 2)) :=
  ⟨by decide,
    withConn_release_discipline ⟨[⟨1, 0⟩], 2, [⟨2, 1⟩], 0⟩ ⟨2, 1⟩
      (by decide) (by decide) (by decide)⟩

/-- getSpeed never changes the total size. -/
lemma getSpeed_totalSize (s : SpeedState) (now : Int) :
    (getSpeed s now).2.totalSize = s.totalSize := by
  unfold getSpeed
  split <;> rfl

/-- getSpeed never changes the completed byte count. -/
lemma getSpeed_completeSize (s : SpeedState) (now : Int) :
    (getSpeed s now).2.completeSize = s.completeSize := by
  unfold getSpeed
  split <;> rfl

/-- getSpeed never changes the last reported percentage. -/
lemma getSpeed_lastPercent (s : SpeedState) (now : Int) :
    (getSpeed s now).2.lastPercent = s.lastPercent := by
  unfold getSpeed
  split <;> rfl

/-- A transform step emits a report exactly when shouldReport holds
on the state with the chunk added. -/
lemma transformStep_isSome (s : SpeedState) (c : Nat) (now : Int) :
    (transformStep s c now).2.isSome
      = shouldReport
          { s with curBatchSize := s.curBatchSize + c, completeSize := s.completeSize + c }
          now := by
  simp only [transformStep]
  split <;> simp_all

/-- A transform step preserves the total size. -/
lemma transformStep_totalSize (s : SpeedState) (c : Nat) (now : Int) :
    (transformStep s c now).1.totalSize = s.totalSize := by
  simp only [transformStep]
  split
  · simp [getSpeed_totalSize]
  · rfl

/-- A transform step adds the chunk to the completed byte count. -/
lemma transformStep_completeSize (s : SpeedState) (c : Nat) (now : Int) :
    (transformStep s c now).1.completeSize = s.completeSize + c := by
  simp only [transformStep]
  split
  · simp [getSpeed_completeSize]
  · rfl

/-- When a transform step reports, the report's increment is the
percentage gain since the last report and lastPercent becomes the
current integer percentage. -/
lemma transformStep_report (s : SpeedState) (c : Nat) (now : Int) (r : Report)
    (h : (transformStep s c now).2 = some r) :
    r.increment = pctFloor s.totalSize (s.completeSize + c) - s.lastPercent ∧
    (transformStep s c now).1.lastPercent = pctFloor s.totalSize (s.completeSize + c) := by
  simp only [transformStep] at h ⊢
  split at h
  · rename_i hrep
    rw [if_pos hrep]
    cases h
    constructor
    · rfl
    · show (getSpeed _ now).2.lastPercent + getIncrement (getSpeed _ now).2 = _
      rw [getSpeed_lastPercent]
      unfold getIncrement
      rw [getSpeed_totalSize, getSpeed_completeSize, getSpeed_lastPercent]
      show s.lastPercent + (pctFloor s.totalSize (s.completeSize + c) - s.lastPercent) = _
      omega
  · exact absurd h (by simp)

/-- When a transform step does not report, lastPercent is
unchanged. -/
lemma transformStep_noReport (s : SpeedState) (c : Nat) (now : Int)
    (h : (transformStep s c now).2 = none) :
    (transformStep s c now).1.lastPercent = s.lastPercent := by
  simp only [transformStep] at h ⊢
  split at h
  · exact absurd h (by simp)
  · rename_i hrep
    rw [if_neg hrep]

/-- The integer percentage is monotone in the completed byte
count. -/
lemma pctFloor_mono (t c1 c2 : Nat) (h : c1 ≤ c2) :
    pctFloor t c1 ≤ pctFloor t c2 := by
  unfold pctFloor
  exact_mod_cast Nat.div_le_div_right (Nat.mul_le_mul_right 100 h)

/-- The running invariant of the tracker: the last reported
percentage is between zero and the current integer percentage. -/
def PctInv (s : SpeedState) : Prop :=
  0 ≤ s.lastPercent ∧ s.lastPercent ≤ pctFloor s.totalSize s.completeSize

/-- A transform step preserves the tracker invariant. -/
lemma transformStep_inv (s : SpeedState) (c : Nat) (now : Int) (h : PctInv s) :
    PctInv (transformStep s c now).1 := by
  unfold PctInv at h ⊢
  rw [transformStep_totalSize, transformStep_completeSize]
  cases hc2 : (transformStep s c now).2 with
  | some r =>
      rw [(transformStep_report s c now r hc2).2]
      have : (0 : Int) ≤ pctFloor s.totalSize (s.completeSize + c) := by
        unfold pctFloor
        exact Int.natCast_nonneg _
      exact ⟨this, le_refl _⟩
  | none =>
      rw [transformStep_noReport s c now hc2]
      exact ⟨h.1, h.2.trans (pctFloor_mono s.totalSize _ _ (by omega))⟩

/-- The total size is constant along a run. -/
lemma runChunks_totalSize (chunks : List (Nat × Int)) :
    ∀ s : SpeedState, (runChunks s chunks).1.totalSize = s.totalSize := by
  induction chunks with
  | nil => intro s; rfl
  | cons head rest ih =>
      intro s
      obtain ⟨len, t⟩ := head
      simp only [runChunks]
      rw [ih, transformStep_totalSize]

/-- The completed byte count after a run is the sum of the chunk
lengths. -/
lemma runChunks_completeSize (chunks : List (Nat × Int)) :
    ∀ s : SpeedState,
      (runChunks s chunks).1.completeSize
        = s.completeSize + (chunks.map Prod.fst).sum := by
  induction chunks with
  | nil => intro s; simp [runChunks]
  | cons head rest ih =>
      intro s
      obtain ⟨len, t⟩ := head
      simp only [runChunks, List.map_cons, List.sum_cons]
      rw [ih, transformStep_completeSize]
      omega

/-- The emitted increments of a run sum to the change in
lastPercent. -/
lemma runChunks_sum (chunks : List (Nat × Int)) :
    ∀ s : SpeedState,
      (emittedIncrements (runChunks s chunks).2).sum
        = (runChunks s chunks).1.lastPercent - s.lastPercent := by
  induction chunks with
  | nil => intro s; simp [runChunks, emittedIncrements]
  | cons head rest ih =>
      intro s
      obtain ⟨len, t⟩ := head
      simp only [runChunks]
      cases hc2 : (transformStep s len t).2 with
      | some r =>
          have hr := transformStep_report s len t r hc2
          simp only [hc2, emittedIncrements, List.filterMap_cons, Option.some.injEq,
            id_eq, List.map_cons, List.sum_cons]
          rw [show ∀ l : List (Option Report),
                ((l.filterMap id).map Report.increment).sum = (emittedIncrements l).sum
              from fun l => rfl]
          rw [ih, hr.1, hr.2]
          omega
      | none =>
          have hn := transformStep_noReport s len t hc2
          simp only [hc2, emittedIncrements, List.filterMap_cons, id_eq]
          rw [show ∀ l : List (Option Report),
                ((l.filterMap id).map Report.increment).sum = (emittedIncrements l).sum
              from fun l => rfl]
          rw [ih, hn]

/-- Every increment emitted from an invariant-satisfying state is
nonnegative. -/
lemma runChunks_nonneg (chunks : List (Nat × Int)) :
    ∀ s : SpeedState, PctInv s →
      ∀ inc ∈ emittedIncrements (runChunks s chunks).2, 0 ≤ inc := by
  induction chunks with
  | nil => intro s _ inc hinc; simp [runChunks, emittedIncrements] at hinc
  | cons head rest ih =>
      intro s hs inc hinc
      obtain ⟨len, t⟩ := head
      simp only [runChunks] at hinc
      cases hc2 : (transformStep s len t).2 with
      | some r =>
          rw [hc2] at hinc
          simp only [emittedIncrements, List.filterMap_cons, id_eq, List.map_cons,
            List.mem_cons] at hinc
          rcases hinc with rfl | hinc
          · rw [(transformStep_report s len t r hc2).1]
            have h1 := hs.2
            have h2 := pctFloor_mono s.totalSize s.completeSize (s.completeSize + len) (by omega)
            omega
          · exact ih _ (transformStep_inv s len t hs) inc hinc
      | none =>
          rw [hc2] at hinc
          simp only [emittedIncrements, List.filterMap_cons, id_eq] at hinc
          exact ih _ (transformStep_inv s len t hs) inc hinc

/-- If the last chunk of a run emitted a report, the final
lastPercent is the integer percentage of the final state. -/
lemma runChunks_last_report (chunks : List (Nat × Int)) :
    ∀ s : SpeedState, ∀ o : Option Report,
      (runChunks s chunks).2.getLast? = some o → o.isSome = true →
      (runChunks s chunks).1.lastPercent
        = pctFloor (runChunks s chunks).1.totalSize (runChunks s chunks).1.completeSize := by
  induction chunks with
  | nil =>
      intro s o hlast _
      simp [runChunks] at hlast
  | cons head rest ih =>
      intro s o hlast hsome
      obtain ⟨len, t⟩ := head
      cases rest with
      | nil =>
          simp only [runChunks, List.getLast?_singleton, Option.some.injEq] at hlast
          subst hlast
          rcases Option.isSome_iff_exists.mp hsome with ⟨r, hr⟩
          simp only [runChunks]
          rw [(transformStep_report s len t r hr).2, transformStep_totalSize,
            transformStep_completeSize]
      | cons head2 rest2 =>
          obtain ⟨len2, t2⟩ := head2
          simp only [runChunks, List.getLast?_cons_cons] at hlast ⊢
          exact ih (transformStep s len t).1 o hlast hsome

/-! ## C5, C6 -/

/-- C5: a progress report is emitted on a chunk iff more than 100 ms
elapsed since the last report and at least one of: the integer
completion percentage (with the chunk counted) increased since the
last report, the current file name changed since the last report,
or the speed estimate is more than 1 s old. -/
theorem speed_report_condition (s : SpeedState) (chunkLen : Nat) (now : Int)
    (htotal : 0 < s.totalSize) :
    (transformStep s chunkLen now).2.isSome = true ↔
      (100 < now - s.lastReportTime ∧
        (s.lastPercent < pctFloor s.totalSize (s.completeSize + chunkLen) ∨
          s.curFileChanged = true ∨ 1000 < now - s.lastSpeedUpdatedTime)) := by
  rw [transformStep_isSome]
  unfold shouldReport getIncrement
  simp only [Bool.and_eq_true, Bool.or_eq_true, decide_eq_true_eq, gt_iff_lt]
  rw [Int.sub_pos]
  tauto

/-- Witness for speed_report_condition: a fresh tracker for 10
bytes receives a 5-byte chunk at 200 ms. -/
theorem speed_report_condition_witness :
    0 < (initSummary 10 0).totalSize ∧
    ((transformStep (initSummary 10 0) 5 200).2.isSome = true ↔
      (100 < (200 : Int) - (initSummary 10 0).lastReportTime ∧
        ((initSummary 10 0).lastPercent
            < pctFloor (initSummary 10 0).totalSize ((initSummary 10 0).completeSize + 5) ∨
          (initSummary 10 0).curFileChanged = true ∨
          1000 < (200 : Int) - (initSummary 10 0).lastSpeedUpdatedTime))) :=
  ⟨by decide, speed_report_condition (initSummary 10 0) 5 200 (by decide)⟩

/-- C6 (amended): over a whole run of the tracker every emitted
increment is nonnegative — equivalently, the running sums of the
reported increments, the cumulative reported percentages, are
non-decreasing — and the cumulative total equals the tracker's
lastPercent; when the chunks add up to the total size AND the final
chunk emits a report, that final cumulative percentage is 100.  The
transform has no flush on stream end, so a final chunk arriving
within 100 ms of the previous report emits nothing and the
cumulative reported percentage then ends below 100 (see
progress_final_below_100). -/
theorem progress_monotone_and_conditional_final (total : Nat) (t0 : Int)
    (chunks : List (Nat × Int)) (htotal : 0 < total) :
    (∀ inc ∈ emittedIncrements (runChunks (initSummary total t0) chunks).2, 0 ≤ inc) ∧
    (emittedIncrements (runChunks (initSummary total t0) chunks).2).sum
      = (runChunks (initSummary total t0) chunks).1.lastPercent ∧
    ((chunks.map Prod.fst).sum = total →
      ∀ o : Option Report,
        (runChunks (initSummary total t0) chunks).2.getLast? = some o →
        o.isSome = true →
        (runChunks (initSummary total t0) chunks).1.lastPercent = 100) := by
  refine ⟨?_, ?_, ?_⟩
  · exact runChunks_nonneg chunks (initSummary total t0)
      ⟨le_refl 0, by unfold pctFloor initSummary; simp⟩
  · rw [runChunks_sum chunks (initSummary total t0)]
    have h0 : (initSummary total t0).lastPercent = 0 := rfl
    rw [h0]
    omega
  · intro hsum o hlast hsome
    rw [runChunks_last_report chunks (initSummary total t0) o hlast hsome,
      runChunks_totalSize, runChunks_completeSize]
    show pctFloor total ((initSummary total t0).completeSize + (chunks.map Prod.fst).sum) = 100
    rw [hsum]
    show pctFloor total (0 + total) = 100
    unfold pctFloor
    rw [Nat.zero_add, Nat.mul_div_cancel_left 100 htotal]
    rfl

/-- Witness for progress_monotone_and_conditional_final: one 1-byte
chunk at 200 ms completes a 1-byte file and reports 100. -/
theorem progress_monotone_and_conditional_final_witness :
    0 < (1 : Nat) ∧
    ((∀ inc ∈ emittedIncrements (runChunks (initSummary 1 0) [(1, 200)]).2, 0 ≤ inc) ∧
     (emittedIncrements (runChunks (initSummary 1 0) [(1, 200)]).2).sum
       = (runChunks (initSummary 1 0) [(1, 200)]).1.lastPercent ∧
     ((([(1, 200)] : List (Nat × Int)).map Prod.fst).sum = 1 →
       ∀ o : Option Report,
         (runChunks (initSummary 1 0) [(1, 200)]).2.getLast? = some o →
         o.isSome = true →
         (runChunks (initSummary 1 0) [(1, 200)]).1.lastPercent = 100)) :=
  ⟨by decide, progress_monotone_and_conditional_final 1 0 [(1, 200)] (by decide)⟩

/-- C6 counterexample: a 2-byte file transferred completely in two
1-byte chunks at 200 ms and 250 ms: the first chunk reports 50, the
second arrives 50 ms after the report and emits nothing, so the
transfer completes successfully with a final cumulative reported
percentage of 50, not 100. -/
theorem progress_final_below_100 :
    ((List.map Prod.fst [((1 : Nat), (200 : Int)), (1, 250)]).sum = 2) ∧
    (runChunks (initSummary 2 0) [(1, 200), (1, 250)]).1.completeSize = 2 ∧
    emittedIncrements (runChunks (initSummary 2 0) [(1, 200), (1, 250)]).2 = [50] ∧
    (runChunks (initSummary 2 0) [(1, 200), (1, 250)]).1.lastPercent = 50 ∧
    ((50 : Int) ≠ 100) :=
  ⟨by decide, by decide, by decide, by decide, by decide⟩

mutual
/-- lstat classification agrees with collecting regular-file sizes
on a single entry. -/
theorem lstatContribution_eq_sum : ∀ e : LEntry,
    lstatContribution e = (regularFileSizes e).sum
  | .file sz => by simp [lstatContribution, regularFileSizes]
  | .dir sub => by
      simp only [lstatContribution, regularFileSizes]
      exact getUploadFolderSize_eq_sum sub
  | .symlink t => by simp [lstatContribution, regularFileSizes]
  | .other => by simp [lstatContribution, regularFileSizes]

/-- The recursive folder walk agrees with collecting regular-file
sizes over a directory's entries. -/
theorem getUploadFolderSize_eq_sum : ∀ es : LEntries,
    getUploadFolderSize es = (regularFileSizesList es).sum
  | .nil => by simp [getUploadFolderSize, regularFileSizesList]
  | .cons name e rest => by
      simp only [getUploadFolderSize, regularFileSizesList, List.sum_append]
      rw [lstatContribution_eq_sum e, getUploadFolderSize_eq_sum rest]
end

/-! ## C4 -/

/-- C4: for every local directory tree, the total byte size the
upload pipeline computes before any bytes move
(_getUploadTypeAndSize via _getUploadFolderSize) equals the sum of
the sizes of all regular files in the tree; symbolic links and
entries of unknown type contribute zero. -/
theorem upload_size_eq_regular_file_total (sub : LEntries) :
    getUploadTypeAndSizeOfDir sub = (regularFileSizesList sub).sum ∧
    getUploadFolderSize sub = (regularFileSizesList sub).sum :=
  ⟨getUploadFolderSize_eq_sum sub, getUploadFolderSize_eq_sum sub⟩

mutual
/-- Every path _downloadFolder creates for one entry lies under the
destination. -/
theorem downloadEntryWrites_prefixed (dst : FPath) (win : Bool) (name : String) :
    ∀ e : REntry, ∀ w ∈ downloadEntryWrites dst win name e, dst <+: w
  | .file => by
      intro w hw
      rcases List.mem_singleton.mp hw with rfl
      exact List.prefix_append dst [name]
  | .dir sub => by
      intro w hw
      rcases List.mem_cons.mp hw with rfl | hw
      · exact List.prefix_append dst [name]
      · exact (List.prefix_append dst [name]).trans
          (downloadWrites_prefixed (dst ++ [name]) win sub w hw)
  | .symFile t => by
      intro w hw
      rcases List.mem_singleton.mp hw with rfl
      exact List.prefix_append dst [name]
  | .symDir t => by
      intro w hw
      rcases List.mem_singleton.mp hw with rfl
      exact List.prefix_append dst [name]
  | .symUnknown t => by
      intro w hw
      simp only [downloadEntryWrites] at hw
      split at hw
      · exact absurd hw (by simp)
      · rcases List.mem_singleton.mp hw with rfl
        exact List.prefix_append dst [name]
  | .unknown => by
      intro w hw
      exact absurd hw (by simp [downloadEntryWrites])

/-- Every path _downloadFolder creates for a directory's entries
lies under the destination. -/
theorem downloadWrites_prefixed (dst : FPath) (win : Bool) :
    ∀ es : REntries, ∀ w ∈ downloadWrites dst win es, dst <+: w
  | .nil => by
      intro w hw
      exact absurd hw (by simp [downloadWrites])
  | .cons name e rest => by
      intro w hw
      simp only [downloadWrites] at hw
      rcases List.mem_append.mp hw with hw | hw
      · exact downloadEntryWrites_prefixed dst win name e w hw
      · exact downloadWrites_prefixed dst win rest w hw
end

/-- Every path Loader.download creates lies under the destination
path. -/
lemma downloadAllWrites_prefixed (dst : FPath) (win : Bool) (tree : REntry) :
    ∀ w ∈ downloadAllWrites dst win tree, dst <+: w := by
  intro w hw
  cases tree with
  | dir sub =>
      rcases List.mem_cons.mp hw with rfl | hw
      · exact List.prefix_refl _
      · exact downloadWrites_prefixed dst win sub w hw
  | file =>
      rcases List.mem_singleton.mp hw with rfl
      exact List.prefix_refl _
  | symFile t => exact absurd hw (by simp [downloadAllWrites])
  | symDir t => exact absurd hw (by simp [downloadAllWrites])
  | symUnknown t => exact absurd hw (by simp [downloadAllWrites])
  | unknown => exact absurd hw (by simp [downloadAllWrites])

mutual
/-- Every path _uploadFolder creates for one entry lies under the
destination. -/
theorem uploadEntryWrites_prefixed (dst : FPath) (name : String) :
    ∀ e : LEntry, ∀ w ∈ uploadEntryWrites dst name e, dst <+: w
  | .file sz => by
      intro w hw
      rcases List.mem_singleton.mp hw with rfl
      exact List.prefix_append dst [name]
  | .dir sub => by
      intro w hw
      rcases List.mem_cons.mp hw with rfl | hw
      · exact List.prefix_append dst [name]
      · exact (List.prefix_append dst [name]).trans
          (uploadWrites_prefixed (dst ++ [name]) sub w hw)
  | .symlink t => by
      intro w hw
      rcases List.mem_singleton.mp hw with rfl
      exact List.prefix_append dst [name]
  | .other => by
      intro w hw
      exact absurd hw (by simp [uploadEntryWrites])

/-- Every path _uploadFolder creates for a directory's entries lies
under the destination. -/
theorem uploadWrites_prefixed (dst : FPath) :
    ∀ es : LEntries, ∀ w ∈ uploadWrites dst es, dst <+: w
  | .nil => by
      intro w hw
      exact absurd hw (by simp [uploadWrites])
  | .cons name e rest => by
      intro w hw
      simp only [uploadWrites] at hw
      rcases List.mem_append.mp hw with hw | hw
      · exact uploadEntryWrites_prefixed dst name e w hw
      · exact uploadWrites_prefixed dst rest w hw
end

/-- Every path Loader.upload creates lies under the destination
path. -/
lemma uploadAllWrites_prefixed (dst : FPath) (tree : LEntry) :
    ∀ w ∈ uploadAllWrites dst tree, dst <+: w := by
  intro w hw
  cases tree with
  | dir sub =>
      rcases List.mem_cons.mp hw with rfl | hw
      · exact List.prefix_refl _
      · exact uploadWrites_prefixed dst sub w hw
  | file sz =>
      rcases List.mem_singleton.mp hw with rfl
      exact List.prefix_refl _
  | symlink t => exact absurd hw (by simp [uploadAllWrites])
  | other => exact absurd hw (by simp [uploadAllWrites])

/-- Removing the destination recursively from a filesystem extended
by writes that all lie under the destination yields the original
filesystem scrubbed of the destination subtree. -/
lemma removeRecursive_append (fs0 : List FPath) (dst : FPath) (ws : List FPath)
    (hws : ∀ w ∈ ws, dst <+: w) :
    removeRecursive (fs0 ++ ws) dst = removeRecursive fs0 dst := by
  unfold removeRecursive
  rw [List.filter_append]
  have : ws.filter (fun q => !(dst.isPrefixOf q)) = [] := by
    refine List.filter_eq_nil_iff.mpr ?_
    intro w hw
    simp [List.isPrefixOf_iff_prefix.mpr (hws w hw)]
  rw [this, List.append_nil]

/-- Nothing under the destination survives removeRecursive. -/
lemma removeRecursive_clears (fs : List FPath) (dst : FPath) :
    ∀ q ∈ removeRecursive fs dst, ¬ dst <+: q := by
  intro q hq
  unfold removeRecursive at hq
  rcases List.mem_filter.mp hq with ⟨_, hq2⟩
  intro hpre
  rw [List.isPrefixOf_iff_prefix.mpr hpre] at hq2
  exact absurd hq2 (by simp)

/-! ## C2 -/

/-- C2: when the cancellation token has fired during a transfer,
Loader.download and Loader.upload remove the partially written
destination (the local file or directory tree, or the partially
uploaded remote path) before returning the cancelled outcome
(undefined): the result is none, the destination is scrubbed from
the filesystem, and no path under the destination remains. -/
theorem cancelled_transfer_removes_destination
    (fs0 rfs0 : List FPath) (dst rdst : FPath) (win : Bool)
    (rtree : REntry) (ltree : LEntry) (k j : Nat) (cancelled : Bool)
    (hc : cancelled = true) :
    (downloadRun fs0 dst win rtree k cancelled).2 = none ∧
    (downloadRun fs0 dst win rtree k cancelled).1 = removeRecursive fs0 dst ∧
    (∀ q ∈ (downloadRun fs0 dst win rtree k cancelled).1, ¬ dst <+: q) ∧
    (uploadRun rfs0 rdst ltree j cancelled).2 = none ∧
    (uploadRun rfs0 rdst ltree j cancelled).1 = removeRecursive rfs0 rdst ∧
    (∀ q ∈ (uploadRun rfs0 rdst ltree j cancelled).1, ¬ rdst <+: q) := by
  subst hc
  have hdw : ∀ w ∈ (downloadAllWrites dst win rtree).take k, dst <+: w :=
    fun w hw => downloadAllWrites_prefixed dst win rtree w (List.mem_of_mem_take hw)
  have huw : ∀ w ∈ (uploadAllWrites rdst ltree).take j, rdst <+: w :=
    fun w hw => uploadAllWrites_prefixed rdst ltree w (List.mem_of_mem_take hw)
  have hd1 : (downloadRun fs0 dst win rtree k true).1 = removeRecursive fs0 dst := by
    unfold downloadRun loaderFinish
    rw [if_pos rfl]
    exact removeRecursive_append fs0 dst _ hdw
  have hu1 : (uploadRun rfs0 rdst ltree j true).1 = removeRecursive rfs0 rdst := by
    unfold uploadRun loaderFinish
    rw [if_pos rfl]
    exact removeRecursive_append rfs0 rdst _ huw
  refine ⟨rfl, hd1, ?_, rfl, hu1, ?_⟩
  · rw [hd1]
    exact removeRecursive_clears fs0 dst
  · rw [hu1]
    exact removeRecursive_clears rfs0 rdst

/-- Witness for cancelled_transfer_removes_destination: a one-file
remote tree downloaded into home/d, a one-file local tree uploaded
to srv/u, both cancelled after the first write. -/
theorem cancelled_transfer_removes_destination_witness :
    (true = true) ∧
    ((downloadRun [["home"]] ["home", "d"] false (.dir (.cons "f" .file .nil)) 1 true).2 = none ∧
     (downloadRun [["home"]] ["home", "d"] false (.dir (.cons "f" .file .nil)) 1 true).1
       = removeRecursive [["home"]] ["home", "d"] ∧
     (∀ q ∈ (downloadRun [["home"]] ["home", "d"] false (.dir (.cons "f" .file .nil)) 1 true).1,
        ¬ ["home", "d"] <+: q) ∧
     (uploadRun [["srv"]] ["srv", "u"] (.dir (.cons "g" (.file 3) .nil)) 1 true).2 = none ∧
     (uploadRun [["srv"]] ["srv", "u"] (.dir (.cons "g" (.file 3) .nil)) 1 true).1
       = removeRecursive [["srv"]] ["srv", "u"] ∧
     (∀ q ∈ (uploadRun [["srv"]] ["srv", "u"] (.dir (.cons "g" (.file 3) .nil)) 1 true).1,
        ¬ ["srv", "u"] <+: q)) :=
  ⟨rfl,
    cancelled_transfer_removes_destination [["home"]] [["srv"]] ["home", "d"] ["srv", "u"]
      false (.dir (.cons "f" .file .nil)) (.dir (.cons "g" (.file 3) .nil)) 1 1 true rfl⟩

/-! ## C7, C8, C9, C10 -/

/-- C7: for every watched root and every sequence of poll outcomes,
each failed poll cycle doubles the next poll delay capping it at
watchMaxInterval = 10000 ms, each successful cycle resets it to
watchMinInterval = 500 ms, so after k consecutive failures (from
the start or following a success) the delay is
min (500 * 2 ^ k) 10000, and the delay never exceeds 10000 ms. -/
theorem watch_backoff_exponential_capped :
    (∀ w : Nat, nextWatchInterval w = min (w * 2) watchMaxInterval) ∧
    (∀ w : Nat, watchStep w true = watchMinInterval) ∧
    (∀ k : Nat, watchIntervalAfter (List.replicate k false)
        = min (watchMinInterval * 2 ^ k) watchMaxInterval) ∧
    (∀ pre : List Bool, ∀ k : Nat,
        watchIntervalAfter (pre ++ true :: List.replicate k false)
          = min (watchMinInterval * 2 ^ k) watchMaxInterval) ∧
    (∀ outcomes : List Bool, watchIntervalAfter outcomes ≤ watchMaxInterval) := by
  refine ⟨nextWatchInterval_eq_min, fun w => rfl, foldl_watchStep_replicate, ?_, ?_⟩
  · intro pre k
    unfold watchIntervalAfter
    rw [List.foldl_append]
    show List.foldl watchStep (watchStep _ true) _ = _
    exact foldl_watchStep_replicate k
  · intro outcomes
    exact foldl_watchStep_le outcomes watchMinInterval (by decide)

/-- C8: when the paths differ and the authorities differ,
FsProvider.rename throws the authority-mismatch error having issued
no effect: no session is acquired and no remote call is made. -/
theorem rename_cross_authority_rejected (oldUri newUri : SUri) (overwrite : Bool)
    (hp : oldUri.path ≠ newUri.path) (ha : oldUri.authority ≠ newUri.authority) :
    rename oldUri newUri overwrite = ([], .error "Authorities different") := by
  unfold rename
  rw [if_neg hp, if_pos ha]

/-- Witness for rename_cross_authority_rejected at concrete URIs. -/
theorem rename_cross_authority_rejected_witness :
    (SUri.mk "alice@h1" "/a").path ≠ (SUri.mk "bob@h2" "/b").path ∧
    (SUri.mk "alice@h1" "/a").authority ≠ (SUri.mk "bob@h2" "/b").authority ∧
    rename ⟨"alice@h1", "/a"⟩ ⟨"bob@h2", "/b"⟩ true
      = ([], .error "Authorities different") :=
  ⟨by decide, by decide,
    rename_cross_authority_rejected ⟨"alice@h1", "/a"⟩ ⟨"bob@h2", "/b"⟩ true
      (by decide) (by decide)⟩

/-- C9: when the paths are identical, FsProvider.rename returns
successfully at once — no session acquired, no remote command, no
destination deletion even with overwrite set, no error. -/
theorem rename_same_path_noop (oldUri newUri : SUri) (overwrite : Bool)
    (hp : oldUri.path = newUri.path) :
    rename oldUri newUri overwrite = ([], .ok ()) := by
  unfold rename
  rw [if_pos hp]

/-- Witness for rename_same_path_noop: same path, different
authorities, overwrite set. -/
theorem rename_same_path_noop_witness :
    (SUri.mk "alice@h1" "/p").path = (SUri.mk "bob@h2" "/p").path ∧
    rename ⟨"alice@h1", "/p"⟩ ⟨"bob@h2", "/p"⟩ true = ([], .ok ()) :=
  ⟨by decide, rename_same_path_noop ⟨"alice@h1", "/p"⟩ ⟨"bob@h2", "/p"⟩ true (by decide)⟩

/-- C10: writeFile's remote open flags, with overwrite === false
taking precedence over create: overwrite false gives "wx" whatever
create is, otherwise create false gives "r+", otherwise "w". -/
theorem writeFile_open_flags :
    (∀ create : Bool, writeFileOpenFlags create false = "wx") ∧
    writeFileOpenFlags false true = "r+" ∧
    writeFileOpenFlags true true = "w" := by
  refine ⟨fun create => ?_, rfl, rfl⟩
  cases create <;> rfl

end VscodeSftp
